import Mathlib

/-!
Shallow embedding of the slip-diff version-history engine.

Sources:
- `src/bin/tabbed.rs`: the `FileVersion` / `App` version store (fields
  `versions`, `index`), its navigation (`next`, `previous`), recording
  (`push_version`, `push_contents`) and the data-modified notification
  handler inside `run_app`.
- `src/main.rs`: the `watch` function's seed-then-drain event loop over a
  `Vec<String>` of versions.

Modelling conventions:
- Rust `usize` arithmetic is modelled with checked semantics on `Nat`:
  a subtraction that would underflow and a remainder by zero are failures
  (`Option.none`), matching the panics of a Rust debug build (`%` by zero
  panics in every build).
- `Instant::now()` timestamps are passed in explicitly as a `Nat` parameter.
- `io::Error` is modelled as an abstract `IOErr` value; a fallible read is
  an `Except IOErr String`.
- Panicking `unwrap()` calls are modelled as `Option`.
-/

namespace SlipDiff

/-- Model of `std::io::Error`: only its identity matters to the engine. -/
def IOErr := String

deriving instance DecidableEq, Repr for IOErr

/-- `FileVersion` from `src/bin/tabbed.rs` lines 27-31: captured contents plus
the capture instant (field `at` in the source; `at` is a Lean keyword, so the
field is named `atTime`). -/
structure FileVersion where
  contents : String
  atTime : Nat
deriving DecidableEq, Repr

/-- `FileVersion::new_at_now` (tabbed.rs lines 33-38); the `Instant::now()`
value is the explicit `now` argument. -/
def FileVersion.new_at_now (contents : String) (now : Nat) : FileVersion :=
  { contents := contents, atTime := now }

/-- `App` from tabbed.rs lines 40-43: the version store (history of
`FileVersion`s) together with the browsing cursor `index`. -/
structure App where
  versions : List FileVersion
  index : Nat
deriving DecidableEq, Repr

/-- `App::new` (tabbed.rs lines 46-51): empty history, cursor 0. -/
def App.new : App :=
  { versions := [], index := 0 }

/-- `App::next` (tabbed.rs lines 53-56):
`self.index = (self.index + 1) % (len - 1)` with no length guard.
With `len = 0` the `usize` subtraction `len - 1` underflows (debug panic);
with `len = 1` the remainder divisor is `0`, which panics in every build.
Both failure modes are `none`. -/
def App.next (a : App) : Option App :=
  let len := a.versions.length
  if len = 0 then none
  else if len - 1 = 0 then none
  else some { a with index := (a.index + 1) % (len - 1) }

/-- `App::previous` (tabbed.rs lines 58-65): decrement when `index > 0`,
otherwise `self.index = len - 2`, which underflows (debug panic) when
`len < 2`. -/
def App.previous (a : App) : Option App :=
  if a.index > 0 then some { a with index := a.index - 1 }
  else if a.versions.length < 2 then none
  else some { a with index := a.versions.length - 2 }

/-- `App::push_version` (tabbed.rs lines 77-79): append one version. -/
def App.push_version (a : App) (version : FileVersion) : App :=
  { a with versions := a.versions ++ [version] }

/-- `App::push_contents` (tabbed.rs lines 81-85): wrap contents in a fresh
`FileVersion` and append it. The Rust function returns `Ok(())`
unconditionally, so the `Result` wrapper is dropped here. -/
def App.push_contents (a : App) (contents : String) (now : Nat) : App :=
  a.push_version (FileVersion.new_at_now contents now)

/-- The `ModifyKind::Data` arm of `run_app` (tabbed.rs lines 140-147):
`versions.last().unwrap()` (panic — `none` — on an empty store), then the
re-read (`fs::read_to_string(&path)?`, whose result is the `readResult`
argument; on error the `?` propagates it with the store untouched), then the
dedup append. Returns the store after the statement together with the
control-flow outcome of the `?`. -/
def App.handleDataModified (a : App) (readResult : Except IOErr String)
    (now : Nat) : Option (App × Except IOErr Unit) :=
  match a.versions.getLast? with
  | none => none
  | some prev =>
    match readResult with
    | Except.error e => some (a, Except.error e)
    | Except.ok contents =>
      let new := FileVersion.new_at_now contents now
      if prev.contents ≠ new.contents then some (a.push_version new, Except.ok ())
      else some (a, Except.ok ())

/-- The store-level `record` operation of the Version Store: the seed append
(`run_app` line 124 / `watch` lines 31-32) when the store is empty, and the
dedup append of the data-modified handler (tabbed.rs lines 141-146,
main.rs lines 49-56) otherwise. -/
def App.recordVersion (a : App) (contents : String) (now : Nat) : App :=
  match a.versions.getLast? with
  | none => a.push_version (FileVersion.new_at_now contents now)
  | some prev =>
    if prev.contents ≠ contents then a.push_version (FileVersion.new_at_now contents now)
    else a

/-- Iterated `App::next` through `Option`. -/
def App.nextN : Nat → App → Option App
  | 0, a => some a
  | n + 1, a => a.next.bind (App.nextN n)

/-- States of the store reachable from `App::new` by the record / advance /
retreat operations (advance and retreat only step when they do not panic). -/
inductive Reachable : App → Prop where
  | init : Reachable App.new
  | record (a : App) (c : String) (t : Nat) :
      Reachable a → Reachable (a.recordVersion c t)
  | advance (a a' : App) : Reachable a → a.next = some a' → Reachable a'
  | retreat (a a' : App) : Reachable a → a.previous = some a' → Reachable a'

/-! The `watch` event loop of `src/main.rs` (lines 29-72). One `RecvItem` is
one `rx.try_recv()` result that returned `Ok`; the queue is the finite list
of items pending in the channel when the loop is reached (`try_recv` never
blocks, so the loop ends as soon as the queue is exhausted). A data-modified
event carries the result of the `fs::read_to_string` re-read performed while
handling it. -/

/-- One received notification, following the `match` arms of
main.rs lines 44-67. -/
inductive RecvItem where
  | dataModified (read : Except IOErr String)
  | modifyOther
  | anyEvent
  | accessEvent
  | createEvent
  | removeEvent
  | otherEvent
  | recvError (e : IOErr)

/-- Outcome of the drain loop: normal return with the final version list, an
I/O error propagated by `?` (paired with the version list at that moment), or
a panic of `versions.last().unwrap()`. -/
inductive WatchResult where
  | ok (versions : List String)
  | ioError (e : IOErr) (versionsAtError : List String)
  | panicked
deriving DecidableEq

/-- The `while let Ok(res) = rx.try_recv()` loop body of `watch`
(main.rs lines 43-69): only `Modify(Data(_))` events touch `versions`;
`prev = versions.last().unwrap()` precedes the fallible re-read, whose error
is propagated by `?`; a changed content is pushed, an identical one ignored;
every other arm (including an `Err` from the channel, which is printed) just
continues. -/
def processQueue (versions : List String) : List RecvItem → WatchResult
  | [] => WatchResult.ok versions
  | RecvItem.dataModified read :: rest =>
    match versions.getLast? with
    | none => WatchResult.panicked
    | some prev =>
      match read with
      | Except.error e => WatchResult.ioError e versions
      | Except.ok contents =>
        if prev ≠ contents then processQueue (versions ++ [contents]) rest
        else processQueue versions rest
  | _ :: rest => processQueue versions rest

/-- `watch` (main.rs lines 29-72): seed `versions` with the initial read
(`fs::read_to_string(path)?`), then drain the pending queue. -/
def watch (seedRead : Except IOErr String) (queue : List RecvItem) : WatchResult :=
  match seedRead with
  | Except.error e => WatchResult.ioError e []
  | Except.ok zero => processQueue [zero] queue

/-! Diff Engine. The program computes its diffs through the external
`similar` crate (`TextDiff::from_lines` in `src/main.rs` lines 74-89), whose
algorithm is not part of this repository, so the engine is modelled from the
spec (§4.2): a line-level longest-common-subsequence alignment over lines
split at newline boundaries, each output operation tagged Equal / Insert /
Delete and carrying the line's text, with deletions preferred before
insertions at a divergence point. -/

/-- `similar::ChangeTag` as used by `print_diff` (main.rs lines 81-85). -/
inductive ChangeTag where
  | equal
  | delete
  | insert
deriving DecidableEq, Repr

/-- One operation of a diff script: a tag plus the line it carries. -/
structure Change where
  tag : ChangeTag
  text : String
deriving DecidableEq, Repr

/-- Modelled from the spec: split a character list into lines at newline
boundaries, the delimiter itself excluded (spec §4.2: "operating on lines
split by newline boundaries, preserving line content exactly ... except for
the splitting delimiter itself"). -/
def splitLinesChars : List Char → List (List Char)
  | [] => [[]]
  | c :: cs =>
    match splitLinesChars cs with
    | [] => [[]]
    | l :: ls => if c = '\n' then [] :: l :: ls else (c :: l) :: ls

/-- Rejoin lines with the newline delimiter; left inverse of
`splitLinesChars`. -/
def joinLines : List (List Char) → List Char
  | [] => []
  | [l] => l
  | l :: l' :: ls => l ++ '\n' :: joinLines (l' :: ls)

/-- Lines of a text blob, as `String`s. -/
def splitLines (s : String) : List String :=
  (splitLinesChars s.data).map String.mk

/-- Rejoin a list of lines into one text blob. -/
def joinString (ls : List String) : String :=
  String.mk (joinLines (ls.map String.data))

/-- Modelled from the spec: length of a longest common subsequence of two
line lists (the alignment quantity of the LCS-based diff of §4.2). -/
def lcsLen : List String → List String → Nat
  | [], _ => 0
  | _ :: _, [] => 0
  | a :: as, b :: bs =>
    if a = b then 1 + lcsLen as bs
    else max (lcsLen as (b :: bs)) (lcsLen (a :: as) bs)
termination_by x y => x.length + y.length

/-- Modelled from the spec: the line-level LCS diff script between two line
lists (§4.2), emitting a deletion before an insertion at each divergence
point (§4.2 tie rule). -/
def diffLines : List String → List String → List Change
  | [], [] => []
  | [], b :: bs => { tag := ChangeTag.insert, text := b } :: diffLines [] bs
  | a :: as, [] => { tag := ChangeTag.delete, text := a } :: diffLines as []
  | a :: as, b :: bs =>
    if a = b then { tag := ChangeTag.equal, text := a } :: diffLines as bs
    else if lcsLen (a :: as) bs ≤ lcsLen as (b :: bs) then
      { tag := ChangeTag.delete, text := a } :: diffLines as (b :: bs)
    else
      { tag := ChangeTag.insert, text := b } :: diffLines (a :: as) bs
termination_by x y => x.length + y.length

/-- Modelled from the spec: `compute(old_text, new_text) -> DiffScript`
(§4.2), splitting both blobs into lines and diffing the line lists. -/
def compute (old_text new_text : String) : List Change :=
  diffLines (splitLines old_text) (splitLines new_text)

/-- Apply a diff script to the line list of the old text: an Equal or Delete
operation consumes the matching old line (Delete drops it), an Insert
operation produces its line; the script must consume `old` exactly. -/
def applyScript : List String → List Change → Option (List String)
  | [], [] => some []
  | _ :: _, [] => none
  | old, c :: rest =>
    match c.tag with
    | ChangeTag.insert => (applyScript old rest).map (fun ls => c.text :: ls)
    | ChangeTag.equal =>
      match old with
      | [] => none
      | o :: os =>
        if o = c.text then (applyScript os rest).map (fun ls => o :: ls) else none
    | ChangeTag.delete =>
      match old with
      | [] => none
      | o :: os => if o = c.text then applyScript os rest else none

/-- A concrete five-entry store (cursor 0) used to instantiate the
navigation theorems. -/
def fiveStore : App :=
  { versions := [FileVersion.new_at_now "v0" 0, FileVersion.new_at_now "v1" 1,
                 FileVersion.new_at_now "v2" 2, FileVersion.new_at_now "v3" 3,
                 FileVersion.new_at_now "v4" 4],
    index := 0 }

/-! Helper lemmas. -/

theorem App.next_eq_of_two_le (a : App) (h : 2 ≤ a.versions.length) :
    a.next = some { a with index := (a.index + 1) % (a.versions.length - 1) } := by
  have h0 : ¬ a.versions.length = 0 := by omega
  have h1 : ¬ a.versions.length - 1 = 0 := by omega
  simp [App.next, h0, h1]

theorem splitLinesChars_ne_nil (cs : List Char) : splitLinesChars cs ≠ [] := by
  cases cs with
  | nil => simp [splitLinesChars]
  | cons c cs =>
    simp only [splitLinesChars]
    rcases h : splitLinesChars cs with _ | ⟨l, ls⟩
    · simp
    · by_cases hc : c = '\n' <;> simp [hc]

theorem joinLines_splitLinesChars (cs : List Char) :
    joinLines (splitLinesChars cs) = cs := by
  induction cs with
  | nil => rfl
  | cons c cs ih =>
    obtain ⟨l, ls, hl⟩ : ∃ l ls, splitLinesChars cs = l :: ls := by
      cases h : splitLinesChars cs with
      | nil => exact absurd h (splitLinesChars_ne_nil cs)
      | cons l ls => exact ⟨l, ls, rfl⟩
    rw [hl] at ih
    simp only [splitLinesChars, hl]
    by_cases hc : c = '\n'
    · subst hc
      simp only [if_pos rfl, joinLines]
      simpa using ih
    · rw [if_neg hc]
      cases ls with
      | nil => simpa [joinLines] using ih
      | cons l' ls' => simpa [joinLines] using ih

theorem joinString_splitLines (s : String) : joinString (splitLines s) = s := by
  unfold joinString splitLines
  rw [List.map_map]
  have : (String.data ∘ String.mk) = id := rfl
  rw [this, List.map_id, joinLines_splitLinesChars]

theorem applyScript_diffLines (as bs : List String) :
    applyScript as (diffLines as bs) = some bs := by
  induction as, bs using diffLines.induct with
  | case1 => simp [diffLines, applyScript]
  | case2 b bs ih => simp [diffLines, applyScript, ih]
  | case3 a as ih => simp [diffLines, applyScript, ih]
  | case4 as b bs ih => simp [diffLines, applyScript, ih]
  | case5 a as b bs hab hlcs ih => simp [diffLines, applyScript, hab, hlcs, ih]
  | case6 a as b bs hab hlcs ih => simp [diffLines, applyScript, hab, hlcs, ih]

/-! Claim theorems. -/

/-- C9: the diff computation is a total function over any two text inputs
(including empty strings) and satisfies the round-trip property: applying the
Insert and Delete operations of `compute old new` to the lines of `old`
always succeeds and reconstructs exactly `new`. -/
theorem diff_round_trip (old_text new_text : String) :
    ∃ lines, applyScript (splitLines old_text) (compute old_text new_text) = some lines ∧
      joinString lines = new_text :=
  ⟨splitLines new_text, applyScript_diffLines _ _, joinString_splitLines _⟩

/-- C3: contrary to the claim, `App::next` and `App::previous` do not check
`len >= 2`: on a single-entry store `next` computes `(index + 1) % 0`, a
remainder by zero that panics in every Rust build, and `previous` computes
the underflowing `len - 2`; on an empty store both operations fail as well
(and `next` also dereferences `len - 1 = 0 - 1`). All four evaluations are
failures (`none`), not no-ops. -/
theorem navigation_panics_on_small_store :
    App.next { versions := [FileVersion.new_at_now "a" 0], index := 0 } = none ∧
    App.previous { versions := [FileVersion.new_at_now "a" 0], index := 0 } = none ∧
    App.next App.new = none ∧
    App.previous App.new = none :=
  ⟨rfl, rfl, rfl, rfl⟩

/-- C6: recording a new version (`push_version` / `push_contents`) never
moves the cursor, and the only field it modifies is the history, which gains
exactly the appended entry. -/
theorem push_version_preserves_cursor (a : App) (v : FileVersion) (c : String) (t : Nat) :
    (a.push_version v).index = a.index ∧
    (a.push_version v).versions = a.versions ++ [v] ∧
    (a.push_contents c t).index = a.index ∧
    (a.push_contents c t).versions = a.versions ++ [FileVersion.new_at_now c t] :=
  ⟨rfl, rfl, rfl, rfl⟩

/-- C4: for every store with at least 2 entries and cursor in `[0, len-2]`,
advance (`App::next`) sets the cursor to `(cursor + 1) % (len - 1)`, which
always lands back inside `[0, len-2]`; with history length 5 and starting
cursor 0, successive advances visit 1, 2, 3, then wrap back to 0. -/
theorem advance_mod_formula (a : App) (h2 : 2 ≤ a.versions.length)
    (hidx : a.index ≤ a.versions.length - 2) :
    a.next = some { a with index := (a.index + 1) % (a.versions.length - 1) } ∧
    (a.index + 1) % (a.versions.length - 1) ≤ a.versions.length - 2 ∧
    (a.versions.length = 5 → a.index = 0 →
      ((App.nextN 1 a).map App.index = some 1 ∧
       (App.nextN 2 a).map App.index = some 2 ∧
       (App.nextN 3 a).map App.index = some 3 ∧
       (App.nextN 4 a).map App.index = some 0)) := by
  obtain ⟨vs, i⟩ := a
  simp only at h2 hidx ⊢
  refine ⟨App.next_eq_of_two_le _ h2, ?_, ?_⟩
  · have hpos : 0 < vs.length - 1 := by omega
    have := Nat.mod_lt (i + 1) hpos
    omega
  · intro h5 h0
    subst h0
    have step : ∀ j : Nat, (App.mk vs j).next = some (App.mk vs ((j + 1) % 4)) := by
      intro j
      have := App.next_eq_of_two_le (App.mk vs j) (by simp [h5])
      simpa [h5] using this
    simp [App.nextN, step, Option.bind]

/-- C4 witness: the theorem instantiated at the concrete five-entry store. -/
theorem advance_mod_formula_witness :
    2 ≤ fiveStore.versions.length ∧ fiveStore.index ≤ fiveStore.versions.length - 2 ∧
    (fiveStore.next = some { fiveStore with
        index := (fiveStore.index + 1) % (fiveStore.versions.length - 1) } ∧
     (fiveStore.index + 1) % (fiveStore.versions.length - 1) ≤ fiveStore.versions.length - 2 ∧
     (fiveStore.versions.length = 5 → fiveStore.index = 0 →
       ((App.nextN 1 fiveStore).map App.index = some 1 ∧
        (App.nextN 2 fiveStore).map App.index = some 2 ∧
        (App.nextN 3 fiveStore).map App.index = some 3 ∧
        (App.nextN 4 fiveStore).map App.index = some 0))) :=
  ⟨by decide, by decide, advance_mod_formula fiveStore (by decide) (by decide)⟩

/-- C5: retreat (`App::previous`) is the inverse of advance (`App::next`) on
every store with at least 2 entries and cursor in `[0, len-2]`: advance then
retreat is the identity, retreat then advance is the identity, and at cursor
0 retreat wraps to the last-but-one index `len - 2`. -/
theorem retreat_inverse_advance (a : App) (h2 : 2 ≤ a.versions.length)
    (hidx : a.index ≤ a.versions.length - 2) :
    a.next.bind App.previous = some a ∧
    a.previous.bind App.next = some a ∧
    (a.index = 0 → a.previous = some { a with index := a.versions.length - 2 }) := by
  obtain ⟨vs, i⟩ := a
  simp only at h2 hidx ⊢
  have hnext : ∀ j : Nat, (App.mk vs j).next =
      some (App.mk vs ((j + 1) % (vs.length - 1))) := by
    intro j
    simpa using App.next_eq_of_two_le (App.mk vs j) h2
  refine ⟨?_, ?_, ?_⟩
  · rw [hnext]
    rcases Nat.lt_or_ge i (vs.length - 2) with hlt | hge
    · have hmod : (i + 1) % (vs.length - 1) = i + 1 := Nat.mod_eq_of_lt (by omega)
      simp [hmod, App.previous]
    · have hi : i = vs.length - 2 := by omega
      subst hi
      have hmod : (vs.length - 2 + 1) % (vs.length - 1) = 0 := by
        have : vs.length - 2 + 1 = vs.length - 1 := by omega
        simp [this]
      have hlen : ¬ vs.length < 2 := by omega
      simp [hmod, App.previous, hlen]
  · rcases Nat.eq_zero_or_pos i with h0 | hpos
    · subst h0
      have hlen : ¬ vs.length < 2 := by omega
      have hprev : (App.mk vs 0).previous = some (App.mk vs (vs.length - 2)) := by
        simp [App.previous, hlen]
      rw [hprev]
      simp only [Option.some_bind]
      rw [hnext]
      have hmod : (vs.length - 2 + 1) % (vs.length - 1) = 0 := by
        have h21 : vs.length - 2 + 1 = vs.length - 1 := by omega
        simp [h21]
      simp [hmod]
    · have hprev : (App.mk vs i).previous = some (App.mk vs (i - 1)) := by
        simp [App.previous, hpos]
      rw [hprev]
      simp only [Option.some_bind]
      rw [hnext]
      have hmod : (i - 1 + 1) % (vs.length - 1) = i := by
        have : i - 1 + 1 = i := by omega
        rw [this]
        exact Nat.mod_eq_of_lt (by omega)
      simp [hmod]
  · intro h0
    subst h0
    have hlen : ¬ vs.length < 2 := by omega
    simp [App.previous, hlen]

/-- C5 witness: the theorem instantiated at the concrete five-entry store. -/
theorem retreat_inverse_advance_witness :
    2 ≤ fiveStore.versions.length ∧ fiveStore.index ≤ fiveStore.versions.length - 2 ∧
    (fiveStore.next.bind App.previous = some fiveStore ∧
     fiveStore.previous.bind App.next = some fiveStore ∧
     (fiveStore.index = 0 → fiveStore.previous =
       some { fiveStore with index := fiveStore.versions.length - 2 })) :=
  ⟨by decide, by decide, retreat_inverse_advance fiveStore (by decide) (by decide)⟩

/-- C1: for every store whose last entry has content `p.contents`,
processing a data-modified notification that reads content `c` succeeds and
appends exactly one new Snapshot (carrying the fresh timestamp `t`) if and
only if `c` differs from the last content byte-exactly; if they are equal the
store is left completely unchanged. -/
theorem record_appends_iff_changed (a : App) (p : FileVersion) (c : String) (t : Nat)
    (hlast : a.versions.getLast? = some p) :
    ∃ a', a.handleDataModified (Except.ok c) t = some (a', Except.ok ()) ∧
      (a'.versions = a.versions ++ [FileVersion.new_at_now c t] ↔ c ≠ p.contents) ∧
      (c = p.contents → a' = a) := by
  by_cases h : p.contents = c
  · refine ⟨a, ?_, ?_, fun _ => rfl⟩
    · simp [App.handleDataModified, hlast, FileVersion.new_at_now, h]
    · constructor
      · intro habs
        exact absurd (congrArg List.length habs) (by simp)
      · intro hne
        exact absurd h (Ne.symm hne)
  · have hcp : c ≠ p.contents := fun hc => h hc.symm
    refine ⟨a.push_version (FileVersion.new_at_now c t), ?_, ?_, ?_⟩
    · simp [App.handleDataModified, hlast, FileVersion.new_at_now, h]
    · simp [App.push_version, hcp]
    · intro hc
      exact absurd hc.symm h

/-- C1 witness: a store whose last entry is `"a"`, notified with `"b"`. -/
theorem record_appends_iff_changed_witness :
    ({ versions := [FileVersion.new_at_now "a" 0], index := 0 } : App).versions.getLast? =
      some (FileVersion.new_at_now "a" 0) ∧
    (∃ a', App.handleDataModified { versions := [FileVersion.new_at_now "a" 0], index := 0 }
        (Except.ok "b") 1 = some (a', Except.ok ()) ∧
      (a'.versions = ({ versions := [FileVersion.new_at_now "a" 0], index := 0 } : App).versions ++
          [FileVersion.new_at_now "b" 1] ↔ "b" ≠ (FileVersion.new_at_now "a" 0).contents) ∧
      ("b" = (FileVersion.new_at_now "a" 0).contents →
        a' = { versions := [FileVersion.new_at_now "a" 0], index := 0 })) :=
  ⟨rfl, record_appends_iff_changed _ _ "b" 1 rfl⟩

/-- C2: de-duplication compares only against the most recent entry: for
`a ≠ b`, recording the sequence `a, b, a` (from the empty store, the first
record being the seed) yields exactly 3 history entries, while recording
`a, b, b` yields 2 — the third record is de-duplicated against the
immediately preceding entry, not the seed. -/
theorem dedup_compares_last_only (a b : String) (h : a ≠ b) (t1 t2 t3 : Nat) :
    (((App.new.recordVersion a t1).recordVersion b t2).recordVersion a t3).versions.length = 3 ∧
    (((App.new.recordVersion a t1).recordVersion b t2).recordVersion b t3).versions.length = 2 := by
  have s1 : App.new.recordVersion a t1 =
      { versions := [FileVersion.new_at_now a t1], index := 0 } := rfl
  have s2 : (App.new.recordVersion a t1).recordVersion b t2 =
      { versions := [FileVersion.new_at_now a t1, FileVersion.new_at_now b t2], index := 0 } := by
    rw [s1]
    simp [App.recordVersion, App.push_version, FileVersion.new_at_now, h]
  constructor
  · rw [s2]
    simp [App.recordVersion, App.push_version, FileVersion.new_at_now, Ne.symm h]
  · rw [s2]
    simp [App.recordVersion, App.push_version, FileVersion.new_at_now]

/-- C2 witness: the spec's end-to-end contents `"a\n"` and `"b\n"`. -/
theorem dedup_compares_last_only_witness :
    ("a\n" : String) ≠ "b\n" ∧
    ((((App.new.recordVersion "a\n" 0).recordVersion "b\n" 1).recordVersion "a\n" 2).versions.length = 3 ∧
     (((App.new.recordVersion "a\n" 0).recordVersion "b\n" 1).recordVersion "b\n" 2).versions.length = 2) :=
  ⟨by decide, dedup_compares_last_only "a\n" "b\n" (by decide) 0 1 2⟩

theorem reachable_cursor_invariant (a : App) (h : Reachable a) :
    a.index < a.versions.length ∨ (a.versions = [] ∧ a.index = 0) := by
  induction h with
  | init => exact Or.inr ⟨rfl, rfl⟩
  | record a c t _ ih =>
    rcases hv : a.versions.getLast? with _ | prev
    · have hnil : a.versions = [] := List.getLast?_eq_none_iff.mp hv
      rcases ih with hlt | ⟨_, hi⟩
      · rw [hnil] at hlt
        exact absurd hlt (by simp)
      · left
        simp [App.recordVersion, hv, App.push_version, hnil, hi]
    · have hne : a.versions ≠ [] := by
        intro hnil
        rw [hnil] at hv
        exact Option.noConfusion hv
      have hlt : a.index < a.versions.length := by
        rcases ih with hlt | ⟨hnil, _⟩
        · exact hlt
        · exact absurd hnil hne
      left
      simp only [App.recordVersion, hv]
      split
      · simp only [App.push_version, List.length_append, List.length_singleton]
        omega
      · exact hlt
  | advance a a' _ hnext ih =>
    simp only [App.next] at hnext
    split at hnext
    · exact Option.noConfusion hnext
    · split at hnext
      · exact Option.noConfusion hnext
      · left
        rename_i h0 h1
        have := Option.some.inj hnext
        subst this
        simp only
        have hpos : 0 < a.versions.length - 1 := by omega
        have := Nat.mod_lt (a.index + 1) hpos
        omega
  | retreat a a' _ hprev ih =>
    simp only [App.previous] at hprev
    split at hprev
    · rename_i hpos
      have := Option.some.inj hprev
      subst this
      left
      simp only
      rcases ih with hlt | ⟨_, hi⟩
      · omega
      · omega
    · split at hprev
      · exact Option.noConfusion hprev
      · rename_i h0 hlen
        have := Option.some.inj hprev
        subst this
        left
        simp only
        omega

/-- C7 counterexample: the initial state `App::new` is reachable, yet its
history is empty and the cursor 0 is not a valid index into it — the claim
that the cursor lies in `[0, len(history)-1]` in every reachable state fails
at the empty-history initial state, where no valid index exists. -/
theorem cursor_out_of_bounds_initial :
    Reachable App.new ∧ App.new.versions = [] ∧
    ¬ App.new.index < App.new.versions.length :=
  ⟨Reachable.init, rfl, by decide⟩

/-- C7 amended: in every state reachable from the initial state by record,
advance and retreat operations whose history is nonempty, the cursor is a
valid index into the history (`cursor < len`); no operation ever moves it out
of bounds as the history grows. -/
theorem cursor_in_bounds_reachable_nonempty (a : App) (h : Reachable a)
    (hne : a.versions ≠ []) : a.index < a.versions.length := by
  rcases reachable_cursor_invariant a h with hlt | ⟨hnil, _⟩
  · exact hlt
  · exact absurd hnil hne

/-- C7 witness: the state after recording one version is reachable, nonempty,
and its cursor is in bounds. -/
theorem cursor_in_bounds_reachable_nonempty_witness :
    Reachable (App.new.recordVersion "a" 0) ∧
    (App.new.recordVersion "a" 0).versions ≠ [] ∧
    (App.new.recordVersion "a" 0).index < (App.new.recordVersion "a" 0).versions.length :=
  ⟨Reachable.record App.new "a" 0 Reachable.init, by decide,
    cursor_in_bounds_reachable_nonempty _ (Reachable.record App.new "a" 0 Reachable.init)
      (by decide)⟩

/-- C8: a failed re-read after a data-modified notification propagates the
error to the caller and leaves the history unchanged — in `watch` the drain
loop stops with the error while the version list is exactly what it was, and
in `run_app` the handler returns the propagated error with the store
untouched; no Snapshot is recorded for a failed read. -/
theorem read_failure_atomic (vs : List String) (hvs : vs ≠ []) (e : IOErr)
    (rest : List RecvItem) (a : App) (ha : a.versions ≠ []) (t : Nat) :
    processQueue vs (RecvItem.dataModified (Except.error e) :: rest) =
      WatchResult.ioError e vs ∧
    a.handleDataModified (Except.error e) t = some (a, Except.error e) := by
  constructor
  · rcases hp : vs.getLast? with _ | p
    · exact absurd (List.getLast?_eq_none_iff.mp hp) hvs
    · simp [processQueue, hp]
  · rcases hp : a.versions.getLast? with _ | p
    · exact absurd (List.getLast?_eq_none_iff.mp hp) ha
    · simp [App.handleDataModified, hp]

/-- C8 witness: a seeded store, a failing re-read, a nonempty remaining
queue. -/
theorem read_failure_atomic_witness :
    (["a"] : List String) ≠ [] ∧
    ({ versions := [FileVersion.new_at_now "a" 0], index := 0 } : App).versions ≠ [] ∧
    (processQueue ["a"] [RecvItem.dataModified (Except.error "disk gone"),
        RecvItem.accessEvent] = WatchResult.ioError "disk gone" ["a"] ∧
     App.handleDataModified { versions := [FileVersion.new_at_now "a" 0], index := 0 }
        (Except.error "disk gone") 7 =
       some ({ versions := [FileVersion.new_at_now "a" 0], index := 0 },
         Except.error "disk gone")) :=
  ⟨by decide, by decide,
    read_failure_atomic ["a"] (by decide) "disk gone" [RecvItem.accessEvent] _ (by decide) 7⟩

theorem processQueue_no_data_modified (vs : List String) (queue : List RecvItem)
    (h : ∀ read, RecvItem.dataModified read ∉ queue) :
    processQueue vs queue = WatchResult.ok vs := by
  induction queue with
  | nil => rfl
  | cons item rest ih =>
    have hrest : ∀ read, RecvItem.dataModified read ∉ rest := by
      intro read hr
      exact h read (List.mem_cons_of_mem _ hr)
    cases item with
    | dataModified read => exact absurd (List.mem_cons_self _ _) (h read)
    | modifyOther => exact ih hrest
    | anyEvent => exact ih hrest
    | accessEvent => exact ih hrest
    | createEvent => exact ih hrest
    | removeEvent => exact ih hrest
    | otherEvent => exact ih hrest
    | recvError e => exact ih hrest

/-- C10: the `watch` event loop is a non-blocking drain of the channel: it
processes only the notifications already queued when the loop is reached and
returns as soon as the queue is exhausted; in a run where no data-modified
notification is pending, `watch` returns immediately with the version list
containing only the seed content. -/
theorem watch_drains_queue_only (zero : String) (queue : List RecvItem)
    (h : ∀ read, RecvItem.dataModified read ∉ queue) :
    watch (Except.ok zero) queue = WatchResult.ok [zero] :=
  processQueue_no_data_modified [zero] queue h

/-- C10 witness: a queue holding only non-modification items. -/
theorem watch_drains_queue_only_witness :
    (∀ read, RecvItem.dataModified read ∉
      [RecvItem.accessEvent, RecvItem.recvError "oops"]) ∧
    watch (Except.ok "seed") [RecvItem.accessEvent, RecvItem.recvError "oops"] =
      WatchResult.ok ["seed"] := by
  have h : ∀ read, RecvItem.dataModified read ∉
      [RecvItem.accessEvent, RecvItem.recvError "oops"] := by
    intro read hmem
    rcases List.mem_cons.mp hmem with h1 | h1
    · exact RecvItem.noConfusion h1
    · rcases List.mem_cons.mp h1 with h2 | h2
      · exact RecvItem.noConfusion h2
      · exact List.not_mem_nil _ h2
  exact ⟨h, watch_drains_queue_only "seed" _ h⟩

end SlipDiff
